import Mathlib

/-!
# Verification of `examples/vgg16/convert_vgg16.py`

A shallow embedding of the npz-to-binary model converter.  Python strings
are modelled as `List Char`, bytes as `Nat` (values `< 256`), and a numpy
array as its shape together with the row-major flattened list of the
IEEE-754 bit patterns of its elements after the cast to `float32`
(each a `Nat < 2^32`).  File contents are `List Nat` (byte lists);
`struct.pack` with format `i` or `f` writes 4 little-endian bytes.
-/

/-- A parameter name: a Python string modelled as its list of characters. -/
abbrev PName := List Char

/-- A numpy array as the converter sees it: its `shape` tuple and the
row-major flattened data after `astype(np.float32)`, each element
represented by its 32-bit pattern. -/
structure NArray where
  shape : List Nat
  data : List Nat
  deriving DecidableEq

/-- The four little-endian bytes of `n mod 2^32`, as written by
`struct.pack` for one 4-byte field. -/
def le4 (n : Nat) : List Nat :=
  [n % 256, n / 256 % 256, n / 65536 % 256, n / 16777216 % 256]

/-- UTF-8 encoding of one character, as `name.encode("utf-8")` produces
per code point. -/
def utf8Char (c : Char) : List Nat :=
  let n := c.toNat
  if n < 128 then [n]
  else if n < 2048 then [192 + n / 64, 128 + n % 64]
  else if n < 65536 then [224 + n / 4096, 128 + n / 64 % 64, 128 + n % 64]
  else [240 + n / 262144, 128 + n / 4096 % 64, 128 + n / 64 % 64, 128 + n % 64]

/-- Python `name.encode("utf-8")`: the UTF-8 bytes of a name. -/
def utf8Bytes (s : PName) : List Nat :=
  s.flatMap utf8Char

/-- Python `name.split(sep)`: splits on every occurrence of `sep`;
the empty string yields `[[]]`. -/
def pySplit (sep : Char) : PName → List PName
  | [] => [[]]
  | c :: rest =>
    if c = sep then [] :: pySplit sep rest
    else
      match pySplit sep rest with
      | [] => [[c]]
      | g :: gs => (c :: g) :: gs

/-- Source line `layer_name = name.split("/")[0]`. -/
def layerName (name : PName) : PName :=
  (pySplit '/' name).headD []

/-- The string `"weights"`. -/
def weightsKey : PName := ['w', 'e', 'i', 'g', 'h', 't', 's']

/-- The string `"biases"`. -/
def biasesKey : PName := ['b', 'i', 'a', 's', 'e', 's']

/-- The suffix `"/W"`. -/
def slashW : PName := ['/', 'W']

/-- The suffix `"/weights"`. -/
def slashWeights : PName := ['/', 'w', 'e', 'i', 'g', 'h', 't', 's']

/-- Source line: `param_type` is `"weights"` when the name ends with
`"/W"` or `"/weights"`, and `"biases"` otherwise. -/
def paramType (name : PName) : PName :=
  if slashW.isSuffixOf name ∨ slashWeights.isSuffixOf name then weightsKey
  else biasesKey

/-- One metadata sub-entry: `{"shape": ..., "offset": ..., "size": ...}`. -/
structure MetaEntry where
  shape : List Nat
  offset : Nat
  size : Nat
  deriving DecidableEq

/-- The inner dict for one layer: insertion-ordered association list from
param type to its entry, modelling a Python dict. -/
abbrev InnerMeta := List (PName × MetaEntry)

/-- The metadata dict: insertion-ordered association list from layer name
to its inner dict. -/
abbrev Metadata := List (PName × InnerMeta)

/-- Lookup in an insertion-ordered association list (Python `d[k]` /
`k in d`). -/
def alookup {α : Type} (k : PName) : List (PName × α) → Option α
  | [] => none
  | (k₂, v) :: rest => if k₂ = k then some v else alookup k rest

/-- Python dict assignment `d[k] = v`: overwrites in place if the key is
present (keeping its position), otherwise appends at the end. -/
def aset {α : Type} (k : PName) (v : α) : List (PName × α) → List (PName × α)
  | [] => [(k, v)]
  | (k₂, v₂) :: rest => if k₂ = k then (k, v) :: rest else (k₂, v₂) :: aset k v rest

/-- The source's metadata update:
`if layer_name not in metadata: metadata[layer_name] = {}` followed by
`metadata[layer_name][param_type] = entry`. -/
def metaInsert (l pt : PName) (e : MetaEntry) (m : Metadata) : Metadata :=
  aset l (aset pt e ((alookup l m).getD [])) m

/-- Lookup `metadata[l][pt]`, as an optional value. -/
def getMeta (m : Metadata) (l pt : PName) : Option MetaEntry :=
  (alookup l m).bind (alookup pt)

/-- The bytes of one parameter record: name length, name, rank, shape
dims, then the float32 payload, exactly as the loop body writes them. -/
def encRecord (name : PName) (a : NArray) : List Nat :=
  le4 (utf8Bytes name).length ++ utf8Bytes name ++
    le4 a.shape.length ++ a.shape.flatMap le4 ++ a.data.flatMap le4

/-- State of the converter: bytes written so far to the binary file
(`f.tell()` is its length) and the in-memory metadata dict. -/
structure ConvState where
  bin : List Nat
  meta : Metadata
  deriving DecidableEq

/-- One iteration of the conversion loop: record the metadata entry with
`offset = f.tell()` captured before writing, then write the record. -/
def writeRecord (st : ConvState) (name : PName) (a : NArray) : ConvState :=
  { bin := st.bin ++ encRecord name a
    meta := metaInsert (layerName name) (paramType name)
      { shape := a.shape, offset := st.bin.length, size := a.shape.prod } st.meta }

/-- The conversion loop over the archive members, in archive order. -/
def convertLoop : List (PName × NArray) → ConvState → ConvState
  | [], st => st
  | (name, a) :: rest, st => convertLoop rest (writeRecord st name a)

/-- Function `convert_model` on an archive (the list of named arrays in iteration
order): writes the member-count header, then every record, building the
metadata dict along the way. -/
def convert_model (archive : List (PName × NArray)) : ConvState :=
  convertLoop archive { bin := le4 archive.length, meta := [] }

/-! ## Decoder for the documented binary layout -/

/-- Read one 4-byte little-endian unsigned field. -/
def readU32 : List Nat → Option (Nat × List Nat)
  | b0 :: b1 :: b2 :: b3 :: rest => some (b0 + 256 * (b1 + 256 * (b2 + 256 * b3)), rest)
  | _ => none

/-- The signed 32-bit value of exactly four little-endian bytes. -/
def int32OfBytes : List Nat → Option Int
  | [b0, b1, b2, b3] =>
    let u := b0 + 256 * (b1 + 256 * (b2 + 256 * b3))
    some (if u < 2 ^ 31 then (u : Int) else (u : Int) - 2 ^ 32)
  | _ => none

/-- Read exactly `n` raw bytes. -/
def readBytes (n : Nat) (l : List Nat) : Option (List Nat × List Nat) :=
  if n ≤ l.length then some (l.take n, l.drop n) else none

/-- Read `n` consecutive 4-byte little-endian fields. -/
def readU32s : Nat → List Nat → Option (List Nat × List Nat)
  | 0, l => some ([], l)
  | n + 1, l =>
    (readU32 l).bind fun p =>
      (readU32s n p.2).map fun q => (p.1 :: q.1, q.2)

/-- One decoded record: name bytes, shape, and float32 payload words. -/
structure DecRecord where
  nameBytes : List Nat
  shape : List Nat
  data : List Nat
  deriving DecidableEq

/-- Decode one record per the documented layout: int32 name length, name
bytes, int32 rank, one int32 per dimension, then product-of-shape
float32 words. -/
def readRecord (l : List Nat) : Option (DecRecord × List Nat) :=
  (readU32 l).bind fun nl =>
    (readBytes nl.1 nl.2).bind fun nb =>
      (readU32 nb.2).bind fun rk =>
        (readU32s rk.1 rk.2).bind fun dims =>
          (readU32s dims.1.prod dims.2).map fun vals =>
            ({ nameBytes := nb.1, shape := dims.1, data := vals.1 }, vals.2)

/-- Decode `n` consecutive records. -/
def readRecords : Nat → List Nat → Option (List DecRecord × List Nat)
  | 0, l => some ([], l)
  | n + 1, l =>
    (readRecord l).bind fun p =>
      (readRecords n p.2).map fun q => (p.1 :: q.1, q.2)

/-- Decode a whole binary file: the count header, then that many records,
requiring that no bytes remain. -/
def readFile (l : List Nat) : Option (List DecRecord) :=
  (readU32 l).bind fun n =>
    (readRecords n.1 n.2).bind fun rs =>
      if rs.2 = [] then some rs.1 else none

/-! ## Derived bookkeeping used to state the metadata claims -/

/-- The byte length of one member's record. -/
def recLen (p : PName × NArray) : Nat :=
  (encRecord p.1 p.2).length

/-- The file position at which member `i`'s record starts: the 4-byte
header plus the lengths of the preceding records. -/
def recOffset (archive : List (PName × NArray)) (i : Nat) : Nat :=
  4 + (((archive.take i).map recLen).sum)

/-- The `(layer, param_type, entry)` triples the loop files into the
metadata dict, in archive order, starting at file position `pos`. -/
def genEntries : List (PName × NArray) → Nat → List (PName × PName × MetaEntry)
  | [], _ => []
  | (name, a) :: rest, pos =>
    (layerName name, paramType name,
      { shape := a.shape, offset := pos, size := a.shape.prod }) ::
      genEntries rest (pos + recLen (name, a))

/-- The last entry filed under `(l, pt)` in a list of generated triples. -/
def lastEntry (l pt : PName) : List (PName × PName × MetaEntry) → Option MetaEntry
  | [] => none
  | (l₂, pt₂, e) :: rest =>
    match lastEntry l pt rest with
    | some e₂ => some e₂
    | none => if l₂ = l ∧ pt₂ = pt then some e else none

/-! ## Fetch step -/

/-- The world the fetch step acts on: the (optional) file at the
destination path and a count of network transfers performed. -/
structure FetchWorld where
  file : Option (List Nat)
  netCalls : Nat
  deriving DecidableEq

/-- Function `download_model`: transfer the remote bytes to the destination path
(one network call). -/
def download_model (remote : List Nat) (w : FetchWorld) : FetchWorld :=
  { file := some remote, netCalls := w.netCalls + 1 }

/-- The fetch step of `main`:
`if not os.path.exists(npz_path): download_model(url, npz_path)`. -/
def fetchStep (remote : List Nat) (w : FetchWorld) : FetchWorld :=
  if w.file.isSome then w else download_model remote w

/-! ## JSON metadata output

Model of the Python standard library call `json.dump(metadata, f, indent=2)`
on the metadata dict: an external collaborator of the source, rendered for
names whose characters need no JSON escaping. -/

/-- A JSON string literal (names here need no escapes). -/
def jsonStr (s : PName) : String :=
  "\"" ++ String.mk s ++ "\""

/-- A JSON array of integers at `indent=2` nesting: `json.dump` puts each
element on its own line at the given indent. -/
def jsonNatList (ind : String) (l : List Nat) : String :=
  match l with
  | [] => "[]"
  | _ =>
    "[\n" ++ String.intercalate (",\n") (l.map fun n => ind ++ "  " ++ Nat.repr n) ++
      "\n" ++ ind ++ "]"

/-- One `{"shape": ..., "offset": ..., "size": ...}` object. -/
def jsonEntry (ind : String) (e : MetaEntry) : String :=
  "\x7b\n" ++
    ind ++ "  " ++ jsonStr ['s', 'h', 'a', 'p', 'e'] ++ ": " ++
      jsonNatList (ind ++ "  ") e.shape ++ ",\n" ++
    ind ++ "  " ++ jsonStr ['o', 'f', 'f', 's', 'e', 't'] ++ ": " ++ Nat.repr e.offset ++ ",\n" ++
    ind ++ "  " ++ jsonStr ['s', 'i', 'z', 'e'] ++ ": " ++ Nat.repr e.size ++ "\n" ++
    ind ++ "\x7d"

/-- One layer's inner dict. -/
def jsonInner (ind : String) (inner : InnerMeta) : String :=
  match inner with
  | [] => "\x7b\x7d"
  | _ =>
    "\x7b\n" ++
      String.intercalate (",\n")
        (inner.map fun p => ind ++ "  " ++ jsonStr p.1 ++ ": " ++ jsonEntry (ind ++ "  ") p.2) ++
      "\n" ++ ind ++ "\x7d"

/-- Call `json.dump(metadata, f, indent=2)`: the full text written to the
metadata JSON file. -/
def jsonDump (m : Metadata) : String :=
  match m with
  | [] => "\x7b\x7d"
  | _ =>
    "\x7b\n" ++
      String.intercalate (",\n")
        (m.map fun p => "  " ++ jsonStr p.1 ++ ": " ++ jsonInner ("  ") p.2) ++
      "\n\x7d"

/-! ## Well-formedness of archives (numpy invariants and 32-bit ranges) -/

/-- A numpy array as loaded from an npz archive: the flattened data has
exactly `prod shape` elements, and every 4-byte field fits its format. -/
def wfArray (a : NArray) : Prop :=
  a.data.length = a.shape.prod ∧ a.shape.length < 2 ^ 31 ∧
    (∀ d ∈ a.shape, d < 2 ^ 31) ∧ ∀ v ∈ a.data, v < 2 ^ 32

/-- A well-formed member: the packed name length fits an int32 and the
array is well-formed. -/
def wfMember (p : PName × NArray) : Prop :=
  (utf8Bytes p.1).length < 2 ^ 31 ∧ wfArray p.2

/-- A well-formed archive: the member count fits an int32 and every
member is well-formed. -/
def wfArchive (archive : List (PName × NArray)) : Prop :=
  archive.length < 2 ^ 31 ∧ ∀ p ∈ archive, wfMember p

instance (a : NArray) : Decidable (wfArray a) := by
  unfold wfArray; infer_instance

instance (p : PName × NArray) : Decidable (wfMember p) := by
  unfold wfMember; infer_instance

instance (archive : List (PName × NArray)) : Decidable (wfArchive archive) := by
  unfold wfArchive; infer_instance

/-! ## Round-trip lemmas for the 4-byte fields -/

theorem le4_length (n : Nat) : (le4 n).length = 4 := rfl

theorem readU32_le4 (n : Nat) (rest : List Nat) :
    readU32 (le4 n ++ rest) = some (n % 4294967296, rest) := by
  simp only [le4, List.cons_append, List.nil_append, readU32, Option.some.injEq, Prod.mk.injEq,
    and_true]
  omega

theorem readU32_le4_lt {n : Nat} (h : n < 2 ^ 32) (rest : List Nat) :
    readU32 (le4 n ++ rest) = some (n, rest) := by
  rw [readU32_le4, Nat.mod_eq_of_lt (by exact h)]

theorem int32OfBytes_le4 {n : Nat} (h : n < 2 ^ 31) :
    int32OfBytes (le4 n) = some (n : Int) := by
  have h32 : n < 2 ^ 32 := lt_trans h (by norm_num)
  have hval : n % 256 + 256 * (n / 256 % 256 + 256 * (n / 65536 % 256 + 256 *
      (n / 16777216 % 256))) = n := by omega
  simp only [le4, int32OfBytes, hval]
  rw [if_pos (by exact h)]

theorem readBytes_append (l rest : List Nat) :
    readBytes l.length (l ++ rest) = some (l, rest) := by
  unfold readBytes
  rw [if_pos (by simp)]
  simp

theorem readU32s_flatMap {dims : List Nat} (h : ∀ d ∈ dims, d < 2 ^ 32) (rest : List Nat) :
    readU32s dims.length (dims.flatMap le4 ++ rest) = some (dims, rest) := by
  induction dims with
  | nil => simp [readU32s]
  | cons d ds ih =>
    have hd : d < 2 ^ 32 := h d (List.mem_cons_self d ds)
    have hds : ∀ x ∈ ds, x < 2 ^ 32 := fun x hx => h x (List.mem_cons_of_mem d hx)
    simp only [List.length_cons, List.flatMap_cons, List.append_assoc, readU32s]
    rw [readU32_le4_lt hd, Option.some_bind, ih hds]
    rfl

theorem readRecord_encRecord {name : PName} {a : NArray} (hw : wfMember (name, a))
    (rest : List Nat) :
    readRecord (encRecord name a ++ rest) =
      some ({ nameBytes := utf8Bytes name, shape := a.shape, data := a.data }, rest) := by
  obtain ⟨hname, hlen, hrank, hdims, hvals⟩ := hw
  have hn32 : (utf8Bytes name).length < 2 ^ 32 := lt_trans hname (by norm_num)
  have hr32 : a.shape.length < 2 ^ 32 := lt_trans hrank (by norm_num)
  have hd32 : ∀ d ∈ a.shape, d < 2 ^ 32 := fun d hd => lt_trans (hdims d hd) (by norm_num)
  unfold readRecord encRecord
  simp only [List.append_assoc]
  rw [readU32_le4_lt hn32, Option.some_bind, readBytes_append, Option.some_bind,
    readU32_le4_lt hr32, Option.some_bind, readU32s_flatMap hd32, Option.some_bind]
  simp only
  rw [← hlen, readU32s_flatMap hvals]
  rfl

theorem readRecords_flatMap {archive : List (PName × NArray)}
    (hw : ∀ p ∈ archive, wfMember p) (rest : List Nat) :
    readRecords archive.length ((archive.flatMap fun p => encRecord p.1 p.2) ++ rest) =
      some (archive.map fun p =>
        { nameBytes := utf8Bytes p.1, shape := p.2.shape, data := p.2.data }, rest) := by
  induction archive with
  | nil => simp [readRecords]
  | cons p ps ih =>
    have hp : wfMember p := hw p (List.mem_cons_self p ps)
    have hps : ∀ q ∈ ps, wfMember q := fun q hq => hw q (List.mem_cons_of_mem p hq)
    simp only [List.length_cons, List.flatMap_cons, List.append_assoc, readRecords]
    rw [readRecord_encRecord hp, Option.some_bind, ih hps]
    rfl

theorem convertLoop_bin (archive : List (PName × NArray)) (st : ConvState) :
    (convertLoop archive st).bin = st.bin ++ archive.flatMap fun p => encRecord p.1 p.2 := by
  induction archive generalizing st with
  | nil => simp [convertLoop]
  | cons p ps ih =>
    obtain ⟨name, a⟩ := p
    simp only [convertLoop, List.flatMap_cons]
    rw [ih]
    simp [writeRecord, List.append_assoc]

theorem convert_model_bin (archive : List (PName × NArray)) :
    (convert_model archive).bin =
      le4 archive.length ++ archive.flatMap fun p => encRecord p.1 p.2 := by
  unfold convert_model
  rw [convertLoop_bin]

/-! ## Metadata dict lemmas -/

theorem alookup_aset_self {α : Type} (k : PName) (v : α) (m : List (PName × α)) :
    alookup k (aset k v m) = some v := by
  induction m with
  | nil => simp [aset, alookup]
  | cons p rest ih =>
    obtain ⟨k₂, v₂⟩ := p
    by_cases h : k₂ = k
    · simp [aset, alookup, h]
    · simp [aset, alookup, h, ih]

theorem alookup_aset_ne {α : Type} {k k₂ : PName} (h : k₂ ≠ k) (v : α)
    (m : List (PName × α)) : alookup k₂ (aset k v m) = alookup k₂ m := by
  induction m with
  | nil =>
    simp only [aset, alookup]
    rw [if_neg (fun hh : k = k₂ => h hh.symm)]
  | cons p rest ih =>
    obtain ⟨k₃, v₃⟩ := p
    by_cases h₃ : k₃ = k
    · subst h₃
      simp only [aset, if_pos rfl, alookup]
      rw [if_neg (fun hh : k₃ = k₂ => h hh.symm), if_neg (fun hh : k₃ = k₂ => h hh.symm)]
    · simp only [aset, if_neg h₃, alookup]
      by_cases h₄ : k₃ = k₂
      · rw [if_pos h₄, if_pos h₄]
      · rw [if_neg h₄, if_neg h₄, ih]

theorem getMeta_metaInsert (l pt l₂ pt₂ : PName) (e : MetaEntry) (m : Metadata) :
    getMeta (metaInsert l pt e m) l₂ pt₂ =
      if l₂ = l ∧ pt₂ = pt then some e else getMeta m l₂ pt₂ := by
  by_cases hl : l₂ = l
  · subst hl
    unfold getMeta metaInsert
    rw [alookup_aset_self, Option.some_bind]
    by_cases hpt : pt₂ = pt
    · subst hpt
      rw [alookup_aset_self, if_pos ⟨rfl, rfl⟩]
    · rw [alookup_aset_ne hpt, if_neg (fun hh => hpt hh.2)]
      cases hlk : alookup l₂ m with
      | none => simp [alookup]
      | some inner => simp
  · unfold getMeta metaInsert
    rw [alookup_aset_ne hl, if_neg (fun hh => hl hh.1)]

theorem convertLoop_meta (archive : List (PName × NArray)) (st : ConvState) (l pt : PName) :
    getMeta (convertLoop archive st).meta l pt =
      match lastEntry l pt (genEntries archive st.bin.length) with
      | some e => some e
      | none => getMeta st.meta l pt := by
  induction archive generalizing st with
  | nil => simp [convertLoop, genEntries, lastEntry]
  | cons p ps ih =>
    obtain ⟨name, a⟩ := p
    simp only [convertLoop, genEntries, lastEntry]
    rw [ih]
    have hlen : (writeRecord st name a).bin.length = st.bin.length + recLen (name, a) := by
      simp [writeRecord, recLen]
    rw [hlen]
    cases lastEntry l pt (genEntries ps (st.bin.length + recLen (name, a))) with
    | some e₂ => simp
    | none =>
      simp only [writeRecord, getMeta_metaInsert]
      by_cases h : l = layerName name ∧ pt = paramType name
      · rw [if_pos h, if_pos ⟨h.1.symm, h.2.symm⟩]
      · rw [if_neg h, if_neg (fun hh => h ⟨hh.1.symm, hh.2.symm⟩)]

theorem convert_getMeta (archive : List (PName × NArray)) (l pt : PName) :
    getMeta (convert_model archive).meta l pt = lastEntry l pt (genEntries archive 4) := by
  unfold convert_model
  rw [convertLoop_meta]
  simp only [le4_length]
  cases lastEntry l pt (genEntries archive 4) with
  | some e => rfl
  | none => rfl

theorem lastEntry_mem {l pt : PName} {lst : List (PName × PName × MetaEntry)} {e : MetaEntry}
    (h : lastEntry l pt lst = some e) : (l, pt, e) ∈ lst := by
  induction lst with
  | nil => simp [lastEntry] at h
  | cons t rest ih =>
    obtain ⟨l₂, pt₂, e₂⟩ := t
    simp only [lastEntry] at h
    cases hrest : lastEntry l pt rest with
    | some e₃ =>
      rw [hrest] at h
      exact List.mem_cons_of_mem _ (ih (hrest.trans h))
    | none =>
      rw [hrest] at h
      by_cases hmatch : l₂ = l ∧ pt₂ = pt
      · rw [if_pos hmatch] at h
        obtain ⟨rfl, rfl⟩ := hmatch
        obtain rfl : e₂ = e := by injection h
        exact List.mem_cons_self _ _
      · rw [if_neg hmatch] at h
        exact absurd h (by simp)

theorem genEntries_mem {archive : List (PName × NArray)} {pos : Nat} {l pt : PName}
    {e : MetaEntry} (h : (l, pt, e) ∈ genEntries archive pos) :
    ∃ i : Fin archive.length,
      layerName (archive.get i).1 = l ∧ paramType (archive.get i).1 = pt ∧
        e = { shape := (archive.get i).2.shape,
              offset := pos + (((archive.take i).map recLen).sum),
              size := (archive.get i).2.shape.prod } := by
  induction archive generalizing pos with
  | nil => simp [genEntries] at h
  | cons p ps ih =>
    obtain ⟨name, a⟩ := p
    simp only [genEntries, List.mem_cons] at h
    rcases h with h | h
    · refine ⟨⟨0, by simp⟩, ?_, ?_, ?_⟩
      · simpa using (congrArg Prod.fst h).symm
      · simpa using (congrArg (fun t => t.2.1) h).symm
      · simpa using congrArg (fun t => t.2.2) h
    · obtain ⟨i, h1, h2, h3⟩ := ih h
      refine ⟨i.succ, by simpa using h1, by simpa using h2, ?_⟩
      rw [h3]
      simp only [Fin.val_succ, List.take_succ_cons, List.map_cons, List.sum_cons]
      congr 1
      omega

/-! ## Byte-position lemmas -/

theorem flatMap_le4_length (l : List Nat) : (l.flatMap le4).length = 4 * l.length := by
  induction l with
  | nil => simp
  | cons x xs ih =>
    simp only [List.flatMap_cons, List.length_append, le4_length, ih, List.length_cons]
    ring

theorem encRecord_length (name : PName) (a : NArray) :
    (encRecord name a).length =
      4 + (utf8Bytes name).length + 4 + 4 * a.shape.length + 4 * a.data.length := by
  simp only [encRecord, List.length_append, le4_length, flatMap_le4_length]

theorem flatMap_drop_sum {α β : Type} (f : α → List β) :
    ∀ (l : List α) (i : Nat),
      (l.flatMap f).drop (((l.take i).map fun x => (f x).length).sum) =
        (l.drop i).flatMap f := by
  intro l
  induction l with
  | nil => intro i; simp
  | cons x xs ih =>
    intro i
    cases i with
    | zero => simp
    | succ j =>
      simp only [List.take_succ_cons, List.map_cons, List.sum_cons, List.flatMap_cons,
        List.drop_succ_cons]
      rw [← List.drop_drop, List.drop_left, ih]

theorem convert_model_bin_drop (archive : List (PName × NArray)) (i : Nat) :
    (convert_model archive).bin.drop (recOffset archive i) =
      (archive.drop i).flatMap fun p => encRecord p.1 p.2 := by
  rw [convert_model_bin]
  unfold recOffset
  rw [← List.drop_drop]
  have h4 : (le4 archive.length ++ archive.flatMap fun p => encRecord p.1 p.2).drop 4 =
      archive.flatMap fun p => encRecord p.1 p.2 := by
    have := List.drop_left (le4 archive.length) (archive.flatMap fun p => encRecord p.1 p.2)
    rwa [le4_length] at this
  rw [h4]
  have := flatMap_drop_sum (fun p : PName × NArray => encRecord p.1 p.2) archive i
  simpa [recLen] using this

theorem drop_at_record (archive : List (PName × NArray)) (i : Fin archive.length) :
    (convert_model archive).bin.drop (recOffset archive i) =
      encRecord (archive.get i).1 (archive.get i).2 ++
        (archive.drop (i + 1)).flatMap fun p => encRecord p.1 p.2 := by
  rw [convert_model_bin_drop, ← List.cons_get_drop_succ (n := i)]
  simp only [List.flatMap_cons, List.get_eq_getElem]

/-! ## Lemmas about the name split -/

theorem pySplit_ne_nil (sep : Char) (s : PName) : pySplit sep s ≠ [] := by
  induction s with
  | nil => simp [pySplit]
  | cons c rest ih =>
    simp only [pySplit]
    by_cases h : c = sep
    · simp [h]
    · rw [if_neg h]
      cases hps : pySplit sep rest with
      | nil => simp
      | cons g gs => simp

theorem layerName_takeWhile (name : PName) :
    layerName name = name.takeWhile fun c => c != '/' := by
  induction name with
  | nil => rfl
  | cons c rest ih =>
    simp only [layerName, pySplit, List.takeWhile]
    by_cases h : c = '/'
    · simp [h]
    · rw [if_neg h]
      have hbne : (c != '/') = true := by simpa using h
      rw [hbne]
      simp only []
      cases hps : pySplit '/' rest with
      | nil => exact absurd hps (pySplit_ne_nil '/' rest)
      | cons g gs =>
        simp only [List.headD]
        rw [layerName, hps] at ih
        simp only [List.headD] at ih
        rw [ih]

/-! ## Claim theorems -/

/-- C1: for every well-formed source archive, the binary output decodes,
per the documented layout (int32 name length, UTF-8 name bytes, int32
rank, int32 per dimension, then product-of-shape float32 words), into
exactly one record per member, in archive order, reproducing each
member's name bytes, shape, and row-major flattened float32 values. -/
theorem C1_roundtrip (archive : List (PName × NArray)) (hwf : wfArchive archive) :
    readFile (convert_model archive).bin =
      some (archive.map fun p =>
        { nameBytes := utf8Bytes p.1, shape := p.2.shape, data := p.2.data }) := by
  obtain ⟨hN, hmem⟩ := hwf
  rw [convert_model_bin]
  unfold readFile
  rw [readU32_le4_lt (lt_trans hN (by norm_num)), Option.some_bind]
  have hrec := readRecords_flatMap hmem []
  rw [List.append_nil] at hrec
  rw [hrec, Option.some_bind]
  simp

theorem C1_roundtrip_witness :
    wfArchive [(['a', '/', 'W'], { shape := [2], data := [5, 6] })] ∧
    readFile (convert_model [(['a', '/', 'W'], { shape := [2], data := [5, 6] })]).bin =
      some [{ nameBytes := [97, 47, 87], shape := [2], data := [5, 6] }] :=
  ⟨by decide, by
    rw [C1_roundtrip [(['a', '/', 'W'], { shape := [2], data := [5, 6] })] (by decide)]
    rfl⟩

/-- C2: for every archive with fewer than 2^31 members, the first 4 bytes
of the binary output are the little-endian signed 32-bit encoding of the
member count, and they precede all record bytes. -/
theorem C2_header (archive : List (PName × NArray)) (h : archive.length < 2 ^ 31) :
    (convert_model archive).bin.take 4 = le4 archive.length ∧
    int32OfBytes ((convert_model archive).bin.take 4) = some (archive.length : Int) ∧
    (convert_model archive).bin.drop 4 = archive.flatMap fun p => encRecord p.1 p.2 := by
  have hbin := convert_model_bin archive
  have htake : (convert_model archive).bin.take 4 = le4 archive.length := by
    rw [hbin]
    have h₂ := List.take_left (le4 archive.length) (archive.flatMap fun p => encRecord p.1 p.2)
    rwa [le4_length] at h₂
  refine ⟨htake, ?_, ?_⟩
  · rw [htake, int32OfBytes_le4 h]
  · rw [hbin]
    have h₂ := List.drop_left (le4 archive.length) (archive.flatMap fun p => encRecord p.1 p.2)
    rwa [le4_length] at h₂

theorem C2_header_witness :
    (([(['a', '/', 'W'], { shape := [2], data := [5, 6] })] :
      List (PName × NArray)).length < 2 ^ 31) ∧
    (convert_model [(['a', '/', 'W'], { shape := [2], data := [5, 6] })]).bin.take 4 =
      le4 1 :=
  ⟨by decide,
    (C2_header [(['a', '/', 'W'], { shape := [2], data := [5, 6] })] (by decide)).1⟩

/-- C3: a name is filed under `"weights"` iff it ends with `/W` or
`/weights`, otherwise under `"biases"`; the layer name is the substring
before the first `/`, and a name with no `/` is its own layer name. -/
theorem C3_classification (name : PName) :
    (paramType name = weightsKey ↔ slashW.isSuffixOf name ∨ slashWeights.isSuffixOf name) ∧
    (¬ (slashW.isSuffixOf name ∨ slashWeights.isSuffixOf name) → paramType name = biasesKey) ∧
    weightsKey ≠ biasesKey ∧
    layerName name = name.takeWhile (fun c => c != '/') ∧
    ('/' ∉ name → layerName name = name) := by
  refine ⟨?_, ?_, by decide, layerName_takeWhile name, ?_⟩
  · constructor
    · intro h
      by_contra hn
      rw [paramType, if_neg hn] at h
      exact absurd h (by decide)
    · intro h
      rw [paramType, if_pos h]
  · intro h
    rw [paramType, if_neg h]
  · intro h
    rw [layerName_takeWhile]
    refine List.takeWhile_eq_self_iff.mpr ?_
    intro c hc
    simpa using fun (hceq : c = '/') => h (hceq ▸ hc)

theorem C3_classification_witness :
    ('/' ∉ (['c', 'o'] : PName)) ∧ layerName ['c', 'o'] = ['c', 'o'] :=
  ⟨by decide, (C3_classification ['c', 'o']).2.2.2.2 (by decide)⟩

/-- A one-member example archive used by concrete witnesses. -/
def exA : List (PName × NArray) :=
  [(['a', '/', 'W'], { shape := [1], data := [7] })]

theorem encRecord_append_drop (name : PName) (a : NArray) (rest : List Nat) :
    ((encRecord name a ++ rest).drop
        (4 + (utf8Bytes name).length + 4 + 4 * a.shape.length)).take
        (4 * a.data.length) = a.data.flatMap le4 := by
  have hsplit : encRecord name a ++ rest =
      (le4 (utf8Bytes name).length ++ utf8Bytes name ++ le4 a.shape.length ++
        a.shape.flatMap le4) ++ (a.data.flatMap le4 ++ rest) := by
    simp [encRecord, List.append_assoc]
  have hlen : (le4 (utf8Bytes name).length ++ utf8Bytes name ++ le4 a.shape.length ++
      a.shape.flatMap le4).length =
        4 + (utf8Bytes name).length + 4 + 4 * a.shape.length := by
    simp only [List.length_append, le4_length, flatMap_le4_length]
  rw [hsplit, ← hlen, List.drop_left, ← flatMap_le4_length a.data, List.take_left]

/-- C4: every metadata entry's offset is the byte position at which its
record's name-length field begins — the write position captured before
any of the record's bytes — and the first record starts at byte 4. -/
theorem C4_offset_before_record (archive : List (PName × NArray)) (l pt : PName)
    (e : MetaEntry) (h : getMeta (convert_model archive).meta l pt = some e) :
    (∃ i : Fin archive.length,
      layerName (archive.get i).1 = l ∧ paramType (archive.get i).1 = pt ∧
      e.offset = recOffset archive i ∧
      ((convert_model archive).bin.drop e.offset).take (recLen (archive.get i)) =
        encRecord (archive.get i).1 (archive.get i).2) ∧
    recOffset archive 0 = 4 := by
  refine ⟨?_, by simp [recOffset]⟩
  rw [convert_getMeta] at h
  obtain ⟨i, h1, h2, h3⟩ := genEntries_mem (lastEntry_mem h)
  have hoff : e.offset = recOffset archive i := by rw [h3]; rfl
  refine ⟨i, h1, h2, hoff, ?_⟩
  rw [hoff, drop_at_record archive i]
  have ht := List.take_left (encRecord (archive.get i).1 (archive.get i).2)
    ((archive.drop (i + 1)).flatMap fun p => encRecord p.1 p.2)
  rw [recLen]
  exact ht

theorem C4_offset_before_record_witness :
    (getMeta (convert_model exA).meta ['a'] weightsKey =
      some { shape := [1], offset := 4, size := 1 }) ∧
    ((∃ i : Fin exA.length,
      layerName (exA.get i).1 = ['a'] ∧ paramType (exA.get i).1 = weightsKey ∧
      ({ shape := [1], offset := 4, size := 1 } : MetaEntry).offset = recOffset exA i ∧
      ((convert_model exA).bin.drop
          ({ shape := [1], offset := 4, size := 1 } : MetaEntry).offset).take
          (recLen (exA.get i)) = encRecord (exA.get i).1 (exA.get i).2) ∧
     recOffset exA 0 = 4) :=
  ⟨by decide,
    C4_offset_before_record exA ['a'] weightsKey
      { shape := [1], offset := 4, size := 1 } (by decide)⟩

/-- C5 as stated is false: for the one-member archive `exA` the stored
offset is 4, the position before the record's name-length field; the
position after the name-length, name, rank and dims fields — where the
float payload begins — is 19, and the two differ. -/
theorem C5_counterexample :
    getMeta (convert_model exA).meta ['a'] weightsKey =
      some { shape := [1], offset := 4, size := 1 } ∧
    (convert_model exA).bin.drop 19 = le4 7 ∧
    (4 : Nat) ≠ 19 :=
  ⟨by decide, by decide, by decide⟩

/-- C5 amended: the stored offset is the byte position at which the
record's name-length field begins; the record's float32 payload begins
at `offset + 4 + (UTF-8 name length) + 4 + 4·rank`. -/
theorem C5_payload_position (archive : List (PName × NArray)) (l pt : PName)
    (e : MetaEntry) (h : getMeta (convert_model archive).meta l pt = some e) :
    ∃ i : Fin archive.length,
      layerName (archive.get i).1 = l ∧ paramType (archive.get i).1 = pt ∧
      e.offset = recOffset archive i ∧
      ((convert_model archive).bin.drop
          (e.offset + (4 + (utf8Bytes (archive.get i).1).length + 4 +
            4 * (archive.get i).2.shape.length))).take
          (4 * (archive.get i).2.data.length) =
        (archive.get i).2.data.flatMap le4 := by
  rw [convert_getMeta] at h
  obtain ⟨i, h1, h2, h3⟩ := genEntries_mem (lastEntry_mem h)
  have hoff : e.offset = recOffset archive i := by rw [h3]; rfl
  refine ⟨i, h1, h2, hoff, ?_⟩
  rw [hoff, ← List.drop_drop, drop_at_record archive i]
  exact encRecord_append_drop (archive.get i).1 (archive.get i).2 _

theorem C5_payload_position_witness :
    (getMeta (convert_model exA).meta ['a'] weightsKey =
      some { shape := [1], offset := 4, size := 1 }) ∧
    ∃ i : Fin exA.length,
      layerName (exA.get i).1 = ['a'] ∧ paramType (exA.get i).1 = weightsKey ∧
      ({ shape := [1], offset := 4, size := 1 } : MetaEntry).offset = recOffset exA i ∧
      ((convert_model exA).bin.drop
          (({ shape := [1], offset := 4, size := 1 } : MetaEntry).offset +
            (4 + (utf8Bytes (exA.get i).1).length + 4 +
              4 * (exA.get i).2.shape.length))).take
          (4 * (exA.get i).2.data.length) =
        (exA.get i).2.data.flatMap le4 :=
  ⟨by decide,
    C5_payload_position exA ['a'] weightsKey
      { shape := [1], offset := 4, size := 1 } (by decide)⟩

/-- C6: each stored `size` equals the product of the stored shape, and
equals the number of float32 values written for that record (whose bytes
number four times as many). -/
theorem C6_size (archive : List (PName × NArray))
    (hwf : ∀ p ∈ archive, p.2.data.length = p.2.shape.prod)
    (l pt : PName) (e : MetaEntry)
    (h : getMeta (convert_model archive).meta l pt = some e) :
    e.size = e.shape.prod ∧
    ∃ i : Fin archive.length,
      layerName (archive.get i).1 = l ∧ paramType (archive.get i).1 = pt ∧
      e.size = (archive.get i).2.data.length ∧
      ((archive.get i).2.data.flatMap le4).length = 4 * e.size := by
  rw [convert_getMeta] at h
  obtain ⟨i, h1, h2, h3⟩ := genEntries_mem (lastEntry_mem h)
  have hdata : (archive.get i).2.data.length = (archive.get i).2.shape.prod :=
    hwf _ (List.get_mem archive i i.isLt)
  refine ⟨by rw [h3], i, h1, h2, ?_, ?_⟩
  · rw [h3]
    exact hdata.symm
  · rw [flatMap_le4_length, h3]
    rw [hdata]

theorem C6_size_witness :
    (∀ p ∈ exA, p.2.data.length = p.2.shape.prod) ∧
    ((some { shape := [1], offset := 4, size := 1 } :
        Option MetaEntry).get (by decide)).size = [1].prod ∧
    getMeta (convert_model exA).meta ['a'] weightsKey =
      some { shape := [1], offset := 4, size := 1 } ∧
    ({ shape := [1], offset := 4, size := 1 } : MetaEntry).size = [1].prod ∧
    ∃ i : Fin exA.length,
      layerName (exA.get i).1 = ['a'] ∧ paramType (exA.get i).1 = weightsKey ∧
      ({ shape := [1], offset := 4, size := 1 } : MetaEntry).size =
        (exA.get i).2.data.length ∧
      ((exA.get i).2.data.flatMap le4).length =
        4 * ({ shape := [1], offset := 4, size := 1 } : MetaEntry).size := by
  refine ⟨by decide, by decide, by decide, ?_, ?_⟩
  · exact (C6_size exA (by decide) ['a'] weightsKey
      { shape := [1], offset := 4, size := 1 } (by decide)).1
  · exact (C6_size exA (by decide) ['a'] weightsKey
      { shape := [1], offset := 4, size := 1 } (by decide)).2

/-! ## The concrete two-member scenario -/

/-- The layer name `"conv1_1"`. -/
def conv11 : PName := ['c', 'o', 'n', 'v', '1', '_', '1']

/-- The member name `"conv1_1/W"`. -/
def conv11W : PName := ['c', 'o', 'n', 'v', '1', '_', '1', '/', 'W']

/-- The member name `"conv1_1/b"`. -/
def conv11b : PName := ['c', 'o', 'n', 'v', '1', '_', '1', '/', 'b']

/-- The two-member scenario archive, with arbitrary float32 payloads of
the right element counts. -/
def arch7 (d1 d2 : List Nat) : List (PName × NArray) :=
  [(conv11W, { shape := [3, 3, 3, 64], data := d1 }),
   (conv11b, { shape := [64], data := d2 })]

theorem arch7_genEntries (d1 d2 : List Nat) (h1 : d1.length = 1728) :
    genEntries (arch7 d1 d2) 4 =
      [(conv11, weightsKey, { shape := [3, 3, 3, 64], offset := 4, size := 1728 }),
       (conv11, biasesKey, { shape := [64], offset := 6949, size := 64 })] := by
  have hr1 : recLen (conv11W, ({ shape := [3, 3, 3, 64], data := d1 } : NArray)) = 6945 := by
    rw [recLen, encRecord_length]
    have hu : (utf8Bytes conv11W).length = 9 := by decide
    simp only [hu, h1]
    norm_num
  simp only [arch7, genEntries, hr1]
  decide

/-- C7 amended: for the archive `["conv1_1/W"` with shape `[3,3,3,64]`,
`"conv1_1/b"` with shape `[64]]`, the metadata offsets are `O1 = 4` and
`O2 = 6949 = O1 + (4 + 9 + 4 + 4·4) + 1728·4` (the claim's
`O1 + 16 + 1728·4` undercounts the record header), the sizes are 1728
and 64, and the binary file is the header `2` followed by the two
records. -/
theorem C7_scenario (d1 d2 : List Nat) (h1 : d1.length = 1728) (h2 : d2.length = 64) :
    getMeta (convert_model (arch7 d1 d2)).meta conv11 weightsKey =
      some { shape := [3, 3, 3, 64], offset := 4, size := 1728 } ∧
    getMeta (convert_model (arch7 d1 d2)).meta conv11 biasesKey =
      some { shape := [64], offset := 6949, size := 64 } ∧
    6949 = 4 + (4 + 9 + 4 + 4 * 4) + 1728 * 4 ∧
    (convert_model (arch7 d1 d2)).bin =
      le4 2 ++
        (encRecord conv11W { shape := [3, 3, 3, 64], data := d1 } ++
          encRecord conv11b { shape := [64], data := d2 }) ∧
    (encRecord conv11W { shape := [3, 3, 3, 64], data := d1 }).length =
      4 + 9 + 4 + 4 * 4 + 4 * 1728 ∧
    (encRecord conv11b { shape := [64], data := d2 }).length =
      4 + 9 + 4 + 4 * 1 + 4 * 64 := by
  refine ⟨?_, ?_, by norm_num, ?_, ?_, ?_⟩
  · rw [convert_getMeta, arch7_genEntries d1 d2 h1]
    decide
  · rw [convert_getMeta, arch7_genEntries d1 d2 h1]
    decide
  · rw [convert_model_bin]
    simp [arch7, List.flatMap_cons]
  · rw [encRecord_length]
    have hu : (utf8Bytes conv11W).length = 9 := by decide
    simp only [hu, h1]
    norm_num
  · rw [encRecord_length]
    have hu : (utf8Bytes conv11b).length = 9 := by decide
    simp only [hu, h2]
    norm_num

theorem C7_scenario_witness :
    (List.replicate 1728 (0 : Nat)).length = 1728 ∧
    (List.replicate 64 (0 : Nat)).length = 64 ∧
    getMeta (convert_model (arch7 (List.replicate 1728 0) (List.replicate 64 0))).meta
        conv11 weightsKey = some { shape := [3, 3, 3, 64], offset := 4, size := 1728 } :=
  ⟨List.length_replicate 1728 0, List.length_replicate 64 0,
    (C7_scenario (List.replicate 1728 0) (List.replicate 64 0)
      (List.length_replicate 1728 0) (List.length_replicate 64 0)).1⟩

/-- C7 as stated is false: in this scenario `O1 = 4` and `O2 = 6949`,
but `O1 + 16 + 1728·4 = 6932 ≠ 6949` — the constant 16 undercounts the
second record's distance (4 length-prefix + 9 name bytes + 4 rank bytes
+ 16 shape-dim bytes = 33, not 16). -/
theorem C7_counterexample :
    getMeta (convert_model (arch7 (List.replicate 1728 0) (List.replicate 64 0))).meta
        conv11 weightsKey = some { shape := [3, 3, 3, 64], offset := 4, size := 1728 } ∧
    getMeta (convert_model (arch7 (List.replicate 1728 0) (List.replicate 64 0))).meta
        conv11 biasesKey = some { shape := [64], offset := 6949, size := 64 } ∧
    ¬ (6949 = 4 + 16 + 1728 * 4) := by
  refine ⟨?_, ?_, by norm_num⟩ <;>
    rw [convert_getMeta, arch7_genEntries _ _ (List.length_replicate 1728 0)] <;> decide

/-- C8 amended: the inner metadata update has Python dict assignment
(overwrite) semantics, not insert-if-absent: the entry retained for a
`(layer, param_type)` pair is the one generated by the last member of the
archive filed under that pair. -/
theorem C8_last_member_wins (archive : List (PName × NArray)) (l pt : PName) :
    getMeta (convert_model archive).meta l pt = lastEntry l pt (genEntries archive 4) :=
  convert_getMeta archive l pt

/-- C8 as stated is false: with two members `"l/W"` and `"l/weights"`,
both filed under layer `"l"` and param type `"weights"`, the retained
entry is the second member's (shape `[2]`, offset 23), not the first's
(shape `[1]`, offset 4). -/
theorem C8_counterexample :
    (genEntries [(['l', '/', 'W'], { shape := [1], data := [0] }),
        (['l', '/', 'w', 'e', 'i', 'g', 'h', 't', 's'], { shape := [2], data := [0, 0] })]
        4).head? =
      some (['l'], weightsKey, { shape := [1], offset := 4, size := 1 }) ∧
    getMeta (convert_model [(['l', '/', 'W'], { shape := [1], data := [0] }),
        (['l', '/', 'w', 'e', 'i', 'g', 'h', 't', 's'],
          { shape := [2], data := [0, 0] })]).meta ['l'] weightsKey =
      some { shape := [2], offset := 23, size := 2 } ∧
    ({ shape := [2], offset := 23, size := 2 } : MetaEntry) ≠
      { shape := [1], offset := 4, size := 1 } :=
  ⟨by decide, by decide, by decide⟩

/-- C9: the fetch step performs a network transfer only when no file
exists at the destination; when one exists it changes nothing and makes
no network call. -/
theorem C9_fetch_idempotent (remote : List Nat) (w : FetchWorld) :
    (w.file.isSome → fetchStep remote w = w) ∧
    ((fetchStep remote w).netCalls ≠ w.netCalls → w.file = none) ∧
    (w.file = none → fetchStep remote w = download_model remote w) := by
  refine ⟨?_, ?_, ?_⟩
  · intro h
    rw [fetchStep, if_pos h]
  · intro h
    by_contra hn
    have hs : w.file.isSome := Option.ne_none_iff_isSome.mp hn
    rw [fetchStep, if_pos hs] at h
    exact h rfl
  · intro h
    rw [fetchStep, if_neg (by simp [h])]

theorem C9_fetch_idempotent_witness :
    (({ file := some [1, 2], netCalls := 0 } : FetchWorld).file.isSome) ∧
    fetchStep [9] { file := some [1, 2], netCalls := 0 } =
      { file := some [1, 2], netCalls := 0 } :=
  ⟨by decide,
    (C9_fetch_idempotent [9] { file := some [1, 2], netCalls := 0 }).1 (by decide)⟩

/-- C10: for an empty archive the binary output is exactly the 4-byte
zero header, and the metadata JSON file is the empty object. -/
theorem C10_empty_archive :
    (convert_model []).bin = le4 0 ∧
    (convert_model []).bin = [0, 0, 0, 0] ∧
    (convert_model []).bin.length = 4 ∧
    int32OfBytes (convert_model []).bin = some 0 ∧
    (convert_model []).meta = [] ∧
    jsonDump (convert_model []).meta = "\x7b\x7d" :=
  ⟨by decide, by decide, by decide, by decide, by decide, rfl⟩
